import Mathlib

/-!
Verification of floc_blog, a static blog generator.

The development shallowly embeds the program's core logic:
* `src/template.rs` — the `$KEY$` template substitution engine, modelled at the
  byte level (`List Nat`, one `Nat` per byte) because the Rust code scans and
  slices the string by raw byte offsets;
* `src/main.rs` — the feed tracker (`FeedTracker::identify`), the markdown
  event transformer (directive extraction in `process_markdown`), blog entry
  construction (`build_blog_entry`), entry ordering and RSS generation
  (`main`, `format_rss`, `format_blog_list`), and the input directory walk
  (`main`, `process_dir`).

Rust `std::process::exit(-1)` error paths are modelled as `Except.error`
values carrying the data the error message names.  Filesystem reads/writes are
out of scope; the walk model records the actions the program would perform.
-/

/-! ## Template engine (src/template.rs, format_template)

The Rust function scans the string for a byte `b'$'` (0x24 = 36); on finding
one it searches forward for the next `'$'`, takes the bytes between as the
key, replaces the whole `$key$` span by the mapped value and resumes scanning
immediately after the inserted value.  A missing key is a fatal error naming
the key; if no closing `'$'` exists the inner scan runs to the end of the
string, the opening `'$'` stays in place and the outer loop then terminates
(everything from the opening `'$'` on is left untouched).

`findDollar l` models the inner scan: it splits `l` at the first 36 byte,
returning the bytes before it and the bytes after it. -/

def findDollar : List Nat → Option (List Nat × List Nat)
| [] => none
| b :: rest =>
  if b = 36 then some ([], rest)
  else
    match findDollar rest with
    | none => none
    | some (key, aft) => some (b :: key, aft)

/-- Function `format_template` from src/template.rs, at byte level.  `values` models
the `HashMap<&str, &str>` lookup.  `Except.error key` models the
`std::process::exit(-1)` taken when a key is absent from the map. -/
def formatTemplate (values : List Nat → Option (List Nat)) : List Nat → Except (List Nat) (List Nat)
| [] => .ok []
| b :: rest =>
  if b = 36 then
    match h : findDollar rest with
    | none => .ok (b :: rest)
    | some (key, aft) =>
      match values key with
      | none => .error key
      | some v => (formatTemplate values aft).map (fun tail => v ++ tail)
  else (formatTemplate values rest).map (fun tail => b :: tail)
termination_by l => l.length
decreasing_by
· have step : ∀ (l k a : List Nat), findDollar l = some (k, a) → a.length < l.length := by
    intro l
    induction l with
    | nil => intro k a hka; simp [findDollar] at hka
    | cons x xs ih =>
      intro k a hka
      simp only [findDollar] at hka
      split at hka
      · cases hka; simp
      · cases hxs : findDollar xs with
        | none => rw [hxs] at hka; cases hka
        | some p =>
          rw [hxs] at hka
          cases p with
          | mk k0 a0 =>
            cases hka
            exact Nat.lt_succ_of_lt (ih k0 a hxs)
  exact Nat.lt_succ_of_lt (step rest key aft h)
· simp

/-! ## UTF-8 validity of byte strings

`format_template` indexes and slices a Rust `String` by raw byte offsets,
which panics if an offset is not a character boundary.  `utf8Valid` is the
standard UTF-8 acceptance predicate (RFC 3629: leads C2–DF, E0–EF, F0–F4 with
the usual restricted second-byte ranges excluding overlongs, surrogates and
values above U+10FFFF). -/

/-- A UTF-8 continuation byte, 0x80–0xBF. -/
def contB (b : Nat) : Bool := 128 ≤ b && b ≤ 191

/-- Allowed second byte of a multi-byte sequence with lead `b` (special-cased
leads E0, ED, F0, F4; otherwise any continuation byte). -/
def cont2ndOk (b c : Nat) : Bool :=
  if b = 224 then 160 ≤ c && c ≤ 191
  else if b = 237 then 128 ≤ c && c ≤ 159
  else if b = 240 then 144 ≤ c && c ≤ 191
  else if b = 244 then 128 ≤ c && c ≤ 143
  else contB c

/-- Consume the remainder of one UTF-8 encoded character whose lead byte is
`b`, returning the bytes after it, or `none` if `b` heads no valid
character encoding here. -/
def utf8Step (b : Nat) (rest : List Nat) : Option (List Nat) :=
  if b ≤ 127 then some rest
  else if 194 ≤ b ∧ b ≤ 223 then
    match rest with
    | c1 :: r1 => if contB c1 then some r1 else none
    | [] => none
  else if 224 ≤ b ∧ b ≤ 239 then
    match rest with
    | c1 :: c2 :: r2 => if cont2ndOk b c1 && contB c2 then some r2 else none
    | _ => none
  else if 240 ≤ b ∧ b ≤ 244 then
    match rest with
    | c1 :: c2 :: c3 :: r3 => if cont2ndOk b c1 && contB c2 && contB c3 then some r3 else none
    | _ => none
  else none

def utf8Valid : List Nat → Bool
| [] => true
| b :: rest =>
  match h : utf8Step b rest with
  | some r => utf8Valid r
  | none => false
termination_by l => l.length
decreasing_by
  have hle : ∀ (x : Nat) (l r : List Nat), utf8Step x l = some r → r.length ≤ l.length := by
    intro x l r hxr
    unfold utf8Step at hxr
    split_ifs at hxr
    · cases hxr; exact Nat.le_refl _
    · split at hxr
      · split_ifs at hxr
        cases hxr
        simp only [List.length_cons]
        omega
      · cases hxr
    · split at hxr
      · split_ifs at hxr
        cases hxr
        simp only [List.length_cons]
        omega
      · cases hxr
    · split at hxr
      · split_ifs at hxr
        cases hxr
        simp only [List.length_cons]
        omega
      · cases hxr
  exact Nat.lt_succ_of_le (hle b rest r h)

/-! ## Feed tracker (src/main.rs, FeedTracker)

`ids: HashMap<String, u32>` is modelled as an association list searched
front-to-back; `identify` only ever inserts a name that is absent, so the
prepend faithfully models `HashMap::insert`.  `u32` ids are modelled as `Nat`:
the counter increments once per distinct feed name, far below 2^32. -/

structure FeedTracker where
  next_feed_id : Nat
  ids : List (String × Nat)

def lookupName : List (String × Nat) → String → Option Nat
| [], _ => none
| (n, i) :: rest, name => if n = name then some i else lookupName rest name

def FeedTracker.new : FeedTracker := ⟨0, []⟩

/-- Method `FeedTracker::identify` from src/main.rs lines 49–58.  Returns the id and
the updated tracker (the Rust method mutates `self`). -/
def FeedTracker.identify (t : FeedTracker) (name : String) : Nat × FeedTracker :=
  match lookupName t.ids name with
  | some id => (id, t)
  | none => (t.next_feed_id, ⟨t.next_feed_id + 1, (name, t.next_feed_id) :: t.ids⟩)

/-- Running `identify` over a sequence of names, collecting the returned ids. -/
def runIdentify (t : FeedTracker) : List String → List Nat × FeedTracker
| [] => ([], t)
| n :: rest =>
  let p := t.identify n
  let q := runIdentify p.2 rest
  (p.1 :: q.1, q.2)

/-- First index of `n` in `seen`, used by the specification-side assignment. -/
def firstIdx : List String → String → Option Nat
| [], _ => none
| m :: rest, n => if m = n then some 0 else (firstIdx rest n).map (· + 1)

/-- Modelled from the spec: "If `name` was seen before, return its existing id;
otherwise allocate the next integer (starting at 0, incrementing by 1 per new
name) and record the mapping", with ids in first-seen order.  This is the
specification-side description the tracker is compared against; `seen` is the
list of distinct names in first-seen order. -/
def specAssign (seen : List String) : List String → List Nat
| [] => []
| n :: rest =>
  match firstIdx seen n with
  | some i => i :: specAssign seen rest
  | none => seen.length :: specAssign (seen ++ [n]) rest

/-! ## Markdown transformer (src/main.rs, process_markdown)

The pulldown-cmark event stream is modelled by `MdEvent`: the three event
shapes the transformer inspects, plus a catch-all for every other event (all
of which pass through untouched).  Directive parsing follows the code: trim
the raw HTML, check the `<!--`/`-->` wrapper, strip it, split at the first
`:`, trim the trailing part.  Rust's `str::trim` removes Unicode whitespace;
the model uses `Char.isWhitespace`, which agrees on it over the ASCII range.

For trimmed comments of byte length 5 or 6 (such as `<!-->`), the Rust slice
`&contents[..contents.len() - 3]` underflows and panics; the model's
truncating `Nat` subtraction yields an empty contents string instead.  No
claim touches these inputs. -/

inductive MdEvent
| startFenced (language : String)
| endFenced (language : String)
| htmlBlock (content : String)
| other (tag : Nat)

def trimChars (l : List Char) : List Char :=
  ((l.dropWhile Char.isWhitespace).reverse.dropWhile Char.isWhitespace).reverse

def splitFirstColon : List Char → Option (List Char × List Char)
| [] => none
| c :: rest =>
  if c = ':' then some ([], rest)
  else
    match splitFirstColon rest with
    | none => none
    | some (bef, aft) => some (c :: bef, aft)

/-- Directive recognition from src/main.rs lines 223–233: returns the label
(untrimmed, as in the code) and the trimmed trailing value when the event
content is an HTML comment containing a colon. -/
def parseDirective (content : String) : Option (String × String) :=
  let t := trimChars content.data
  if t.take 4 = "<!--".data ∧ t.drop (t.length - 3) = "-->".data then
    let contents := t.drop 4
    let contents := contents.take (contents.length - 3)
    match splitFirstColon contents with
    | none => none
    | some (label, trailing) => some (⟨label⟩, ⟨trimChars trailing⟩)
  else none

/-- The per-document metadata scratch area: the four scratch strings of
`Buffers` that `process_markdown` clears and fills, the accumulated
`additional_feeds` list, and the shared feed tracker.  The `input`, `html`
and `output` buffers carry no metadata and are not modelled. -/
structure DocMeta where
  title : String
  description : String
  author : String
  date : String
  additionalFeeds : List Nat
  tracker : FeedTracker

/-- Effect of one recognized directive on the scratch area, from the `match
label` in src/main.rs lines 235–262: the four scratch labels clear-then-set
their buffer, `additional-feed` resolves the value through the tracker and
appends the id, anything else is ignored. -/
def applyDirective (m : DocMeta) (label value : String) : DocMeta :=
  if label = "title" then { m with title := value }
  else if label = "description" then { m with description := value }
  else if label = "author" then { m with author := value }
  else if label = "date" then { m with date := value }
  else if label = "additional-feed" then
    let p := m.tracker.identify value
    { m with additionalFeeds := m.additionalFeeds ++ [p.1], tracker := p.2 }
  else m

/-- The event-mapping closure of `process_markdown` (src/main.rs lines
210–268): `image_description` fenced code blocks are replaced by literal HTML
and inspected no further; HTML events are scanned for directives as a side
channel and emitted unchanged; everything else passes through. -/
def processEvent (m : DocMeta) (ev : MdEvent) : DocMeta × MdEvent :=
  match ev with
  | .startFenced language =>
    if language = "image_description" then (m, .htmlBlock "<div class=\"ImageDescription\"><p>")
    else (m, ev)
  | .endFenced language =>
    if language = "image_description" then (m, .htmlBlock "</p></div>")
    else (m, ev)
  | .htmlBlock content =>
    match parseDirective content with
    | some p => (applyDirective m p.1 p.2, ev)
    | none => (m, ev)
  | .other _ => (m, ev)

def processEvents (m : DocMeta) : List MdEvent → DocMeta × List MdEvent
| [] => (m, [])
| ev :: rest =>
  let p := processEvent m ev
  let q := processEvents p.1 rest
  (q.1, p.2 :: q.2)

/-- The scratch area at the start of `process_markdown`: the four buffers are
explicitly cleared, `additional_feeds` starts as a fresh `Vec::new()`. -/
def initMeta (tracker : FeedTracker) : DocMeta := ⟨"", "", "", "", [], tracker⟩

/-- Specification-side extraction: the value a single event contributes for a
given directive label, if any. -/
def directiveValue (label : String) (ev : MdEvent) : Option String :=
  match ev with
  | .htmlBlock content =>
    match parseDirective content with
    | some p => if p.1 = label then some p.2 else none
    | none => none
  | _ => none

/-! ## Blog entries (src/main.rs, BlogEntry and build_blog_entry) -/

/-- Record `BlogEntry` from src/main.rs lines 61–68.  `date: DateTime<Utc>` is an
instant on the UTC timeline, modelled as an integer timestamp; `u32` feed ids
are modelled as `Nat`. -/
structure BlogEntry where
  url_name : String
  title : String
  description : String
  date : Int
  additional_feeds : List Nat
deriving DecidableEq

inductive CompileError
| missingAttribute (path : String) (attr : String)
| dateParse (path : String)
deriving DecidableEq

/-- Function `build_blog_entry` from src/main.rs lines 138–180.  `check_error` calls
`std::process::exit(-1)` when a buffer is empty; that is the
`missingAttribute` error carrying the path and attribute name the message
prints.  Date parsing is done by the external chrono crate and is abstracted
as the `parseDate` parameter; a parse failure is the `dateParse` error. -/
def build_blog_entry (parseDate : String → Option Int) (buffers : DocMeta)
    (path url_name : String) (additional_feeds : List Nat) : Except CompileError BlogEntry :=
  if buffers.title = "" then .error (.missingAttribute path "title")
  else if buffers.description = "" then .error (.missingAttribute path "description")
  else if buffers.date = "" then .error (.missingAttribute path "date")
  else
    match parseDate buffers.date with
    | none => .error (.dateParse path)
    | some d => .ok ⟨url_name, buffers.title, buffers.description, d, additional_feeds⟩

/-! ## Site assembler: ordering and RSS (src/main.rs, main / format_rss)

`main` (line 724) runs `blog_entries.sort_by(|left, right|
right.date.cmp(&left.date))` once, then renders the main RSS feed, every
per-feed RSS document and the entry list page from the sorted vector.
`Vec::sort_by` is a stable sort under the comparator; it is modelled by
Mathlib's stable `List.insertionSort` under the corresponding relation
(`left` sorts no later than `right` iff `right.date ≤ left.date`). -/

def dateDescBefore (l r : BlogEntry) : Prop := r.date ≤ l.date

instance : DecidableRel dateDescBefore := fun l r => Int.decLe r.date l.date

instance : IsTotal BlogEntry dateDescBefore := ⟨fun a b => le_total b.date a.date⟩

instance : IsTrans BlogEntry dateDescBefore := ⟨fun _ _ _ h h2 => le_trans h2 h⟩

def sortEntries (entries : List BlogEntry) : List BlogEntry :=
  entries.insertionSort dateDescBefore

/-- The membership test of the item loop in `format_rss` (src/main.rs lines
534–539): with a feed id the entry is skipped unless its `additional_feeds`
contains the id; with `None` (the main feed) every entry is emitted. -/
def feedPred (feed_id : Option Nat) (e : BlogEntry) : Bool :=
  match feed_id with
  | some fid => e.additional_feeds.contains fid
  | none => true

/-- The subsequence of entries for which the `format_rss` item loop writes an
`<item>`, in loop order. -/
def rssEntries (feed_id : Option Nat) : List BlogEntry → List BlogEntry
| [] => []
| e :: rest =>
  match feed_id with
  | some fid =>
    if e.additional_feeds.contains fid then e :: rssEntries feed_id rest
    else rssEntries feed_id rest
  | none => e :: rssEntries feed_id rest

/-- Modelled from the spec: chrono's RFC-2822 rendering of the entry date
(`entry.date.to_rfc2822()`), an external library call, abstracted as a
rendering of the modelled timestamp. -/
def rfc2822 (date : Int) : String := toString date

/-- One `<item>` block exactly as the `write!` in `format_rss` lays it out
(each `multiline!` line is followed by a newline). -/
def rssItem (base_url : String) (e : BlogEntry) : String :=
  "<item>\n\t<title>" ++ e.title ++ "</title>\n\t<description>" ++ e.description
    ++ "</description>\n\t<pubDate>" ++ rfc2822 e.date ++ "</pubDate>\n\t<link>"
    ++ base_url ++ "/" ++ e.url_name ++ "</link>\n</item>\n"

/-- The `items` string of `format_rss`: the item loop of lines 531–561,
appending one `<item>` block per retained entry. -/
def rssItemsString (base_url : String) (feed_id : Option Nat) : List BlogEntry → String
| [] => ""
| e :: rest =>
  match feed_id with
  | some fid =>
    if e.additional_feeds.contains fid then
      rssItem base_url e ++ rssItemsString base_url feed_id rest
    else rssItemsString base_url feed_id rest
  | none => rssItem base_url e ++ rssItemsString base_url feed_id rest

/-! ## Date formatting with ordinal day suffix

`process_markdown` (src/main.rs lines 343–350) picks the header's chrono
format string by matching on the day of month: days 1–3 get hardcoded
`1st`/`2nd`/`3rd`, every other day uses `%e` (chrono: day of month,
space-padded to width 2) followed by a literal `th`.  `format_blog_list`
(line 595) formats the entry date with the fixed string
`"%A the %eth of %B %Y"`. -/

def headerDateFormatStr (day : Nat) : String :=
  if day = 1 then "%A the 1st of %B %Y"
  else if day = 2 then "%A the 2nd of %B %Y"
  else if day = 3 then "%A the 3rd of %B %Y"
  else "%A the %eth of %B %Y"

def blogListDateFormatStr : String := "%A the %eth of %B %Y"

/-- Modelled from the spec: chrono's `%e` specifier (external library), the
day of month space-padded to width 2. -/
def chronoDayPadded (day : Nat) : String :=
  (if day < 10 then " " else "") ++ toString day

/-- The day-of-month portion of the rendered header date: what the chosen
header format string produces for the day. -/
def headerOrdinalDay (day : Nat) : String :=
  if day = 1 then "1st"
  else if day = 2 then "2nd"
  else if day = 3 then "3rd"
  else chronoDayPadded day ++ "th"

/-- The day-of-month portion of the rendered blog-list date: `%eth` always. -/
def blogListOrdinalDay (day : Nat) : String := chronoDayPadded day ++ "th"

/-! ## Input directory walk (src/main.rs, main lines 678–722 / process_dir)

The input tree is modelled one level deep, as the code walks it: root entries
are plain files or directories of files.  `Path::file_stem`/`extension` on a
plain file name split at the last dot, except that an empty portion before
the dot (a leading-dot name) makes the whole name the stem with no
extension.  `process_dir` maps `extension()` through
`.map(..).unwrap_or(Some("")).unwrap_or("")` to a plain string. -/

/-- Split a file name at its last dot: `some (stem, ext)` or `none` when the
name has no dot. -/
def splitLastDot : List Char → Option (List Char × List Char)
| [] => none
| c :: rest =>
  match splitLastDot rest with
  | some (st, ex) => some (c :: st, ex)
  | none => if c = '.' then some ([], rest) else none

/-- Rust `Path::file_stem` for a plain file name. -/
def fileStem (name : String) : String :=
  match splitLastDot name.data with
  | some (st, _) => if st = [] then name else ⟨st⟩
  | none => name

/-- Rust `Path::extension` for a plain file name, defaulted to `""` as in
`process_dir`. -/
def fileExt (name : String) : String :=
  match splitLastDot name.data with
  | some (st, ex) => if st = [] then "" else ⟨ex⟩
  | none => ""

inductive WalkError
| indexName (path : String)
| rootFile (path : String)
| mdMisnamed (path : String)
deriving DecidableEq

inductive OutputAction
| page (dir : String)
| copy (dir file : String)
deriving DecidableEq

/-- Function `process_dir` from src/main.rs lines 446–528, reduced to its decisions:
a markdown file not named `content.md` is fatal; `content.md` compiles to
`dir/index.html`; every other file is copied.  There is no `index.*` check
in this function. -/
def processDirModel (dirName : String) : List String → Except WalkError (List OutputAction)
| [] => .ok []
| f :: rest =>
  if fileExt f = "md" then
    if f ≠ "content.md" then .error (.mdMisnamed (dirName ++ "/" ++ f))
    else
      match processDirModel dirName rest with
      | .error e => .error e
      | .ok acts => .ok (.page dirName :: acts)
  else
    match processDirModel dirName rest with
    | .error e => .error e
    | .ok acts => .ok (.copy dirName f :: acts)

inductive InputEntry
| file (name : String)
| dir (name : String) (files : List String)

def InputEntry.name : InputEntry → String
| .file n => n
| .dir n _ => n

/-- The root loop of `main` (src/main.rs lines 678–722): each root entry is
first checked for stem `index` (fatal), then directories are handed to
`process_dir` and plain root-level files are fatal. -/
def mainWalk : List InputEntry → Except WalkError (List OutputAction)
| [] => .ok []
| e :: rest =>
  if fileStem e.name = "index" then .error (.indexName e.name)
  else
    match e with
    | .file n => .error (.rootFile n)
    | .dir n files =>
      match processDirModel n files with
      | .error err => .error err
      | .ok acts =>
        match mainWalk rest with
        | .error err => .error err
        | .ok more => .ok (acts ++ more)

/-! # Theorems -/

/-! ## Template engine scanning lemmas -/

theorem findDollar_eq_none {l : List Nat} (h : 36 ∉ l) : findDollar l = none := by
  induction l with
  | nil => rfl
  | cons b rest ih =>
    have hb : b ≠ 36 := fun hb => h (hb ▸ List.mem_cons_self b rest)
    have hr : 36 ∉ rest := fun hm => h (List.mem_cons_of_mem b hm)
    simp [findDollar, hb, ih hr]

theorem findDollar_append {key rest : List Nat} (h : 36 ∉ key) :
    findDollar (key ++ 36 :: rest) = some (key, rest) := by
  induction key with
  | nil => simp [findDollar]
  | cons b k ih =>
    have hb : b ≠ 36 := fun hb => h (hb ▸ List.mem_cons_self b k)
    have hk : 36 ∉ k := fun hm => h (List.mem_cons_of_mem b hm)
    simp [findDollar, hb, ih hk]

theorem findDollar_decomp :
    ∀ {l key aft : List Nat}, findDollar l = some (key, aft) →
      l = key ++ 36 :: aft ∧ 36 ∉ key := by
  intro l
  induction l with
  | nil => intro key aft h; simp [findDollar] at h
  | cons b rest ih =>
    intro key aft h
    simp only [findDollar] at h
    split at h
    · rename_i hb
      cases h
      subst hb
      exact ⟨rfl, by simp⟩
    · rename_i hb
      cases hr : findDollar rest with
      | none => rw [hr] at h; cases h
      | some p =>
        rw [hr] at h
        cases p with
        | mk k0 a0 =>
          cases h
          obtain ⟨hdec, hmem⟩ := ih hr
          refine ⟨by rw [hdec]; rfl, ?_⟩
          intro hm
          rcases List.mem_cons.mp hm with h36 | h36
          · exact hb h36.symm
          · exact hmem h36

/-- Bytes other than `'$'` pass through the scanner unchanged, in front of
whatever the rest of the scan produces. -/
theorem formatTemplate_no_dollar_front (values : List Nat → Option (List Nat)) :
    ∀ {p : List Nat}, 36 ∉ p → ∀ (l : List Nat),
      formatTemplate values (p ++ l) = (formatTemplate values l).map (fun t => p ++ t) := by
  intro p
  induction p with
  | nil =>
    intro _ l
    cases hfl : formatTemplate values l <;> simp [Except.map, hfl]
  | cons b rest ih =>
    intro h l
    have hb : b ≠ 36 := fun hb => h (hb ▸ List.mem_cons_self b rest)
    have hr : 36 ∉ rest := fun hm => h (List.mem_cons_of_mem b hm)
    have : formatTemplate values (b :: (rest ++ l))
        = (formatTemplate values (rest ++ l)).map (fun t => b :: t) := by
      simp [formatTemplate, hb]
    rw [List.cons_append, this, ih hr l]
    cases hfl : formatTemplate values l <;> simp [Except.map]

/-- A template with no `'$'` byte is returned unchanged. -/
theorem formatTemplate_no_dollar_id (values : List Nat → Option (List Nat))
    {l : List Nat} (h : 36 ∉ l) : formatTemplate values l = .ok l := by
  induction l with
  | nil => simp [formatTemplate]
  | cons b rest ih =>
    have hb : b ≠ 36 := fun hb => h (hb ▸ List.mem_cons_self b rest)
    have hr : 36 ∉ rest := fun hm => h (List.mem_cons_of_mem b hm)
    simp [formatTemplate, hb, ih hr, Except.map]

/-- Unfolding the scanner at an opening `'$'` whose key is terminated by a
closing `'$'`. -/
theorem formatTemplate_open_dollar (values : List Nat → Option (List Nat))
    (key rest : List Nat) (hkey : 36 ∉ key) :
    formatTemplate values (36 :: (key ++ 36 :: rest))
      = match values key with
        | none => Except.error key
        | some v => (formatTemplate values rest).map (fun tail => v ++ tail) := by
  have hfd := @findDollar_append key rest hkey
  simp only [formatTemplate]
  split
  · split
    · rename_i heq
      rw [hfd] at heq
      cases heq
    · rename_i key1 aft heq
      rw [hfd] at heq
      cases heq
      rfl
  · rename_i heq
    exact (heq trivial).elim

/-- Unfolding the scanner at an opening `'$'` with no closing `'$'` after it. -/
theorem formatTemplate_open_dollar_unterminated (values : List Nat → Option (List Nat))
    (rest : List Nat) (hrest : 36 ∉ rest) :
    formatTemplate values (36 :: rest) = .ok (36 :: rest) := by
  simp only [formatTemplate]
  split
  · split
    · rfl
    · rename_i key1 aft heq
      rw [findDollar_eq_none hrest] at heq
      cases heq
  · rename_i heq
    exact (heq trivial).elim

/-- C1: if the scan finds a `$KEY$` placeholder whose key is absent from the
mapping, substitution fails with a fatal error naming that key; if the key is
present, the output is byte-identical to the template with the span from the
opening `$` through the closing `$` replaced by the mapped value, and the
scan resumes immediately after the inserted value (the inserted value is
never rescanned; substitution is single-pass and non-recursive).  `pre` is
the dollar-free part already scanned, so the `$` shown is the one the scan
finds; the conclusion re-enters the scanner only on `rest`, the bytes after
the closing `$`. -/
theorem c1_template_substitution (values : List Nat → Option (List Nat))
    (pre key rest : List Nat) (hpre : 36 ∉ pre) (hkey : 36 ∉ key) :
    (values key = none →
      formatTemplate values (pre ++ 36 :: key ++ 36 :: rest) = .error key)
    ∧ (∀ v, values key = some v →
      formatTemplate values (pre ++ 36 :: key ++ 36 :: rest)
        = (formatTemplate values rest).map (fun tail => pre ++ v ++ tail)) := by
  have hassoc : pre ++ 36 :: key ++ 36 :: rest = pre ++ (36 :: (key ++ 36 :: rest)) := by
    simp
  constructor
  · intro hv
    rw [hassoc, formatTemplate_no_dollar_front values hpre]
    have hmid : formatTemplate values (36 :: (key ++ 36 :: rest)) = .error key := by
      rw [formatTemplate_open_dollar values key rest hkey, hv]
    rw [hmid]
    simp [Except.map]
  · intro v hv
    rw [hassoc, formatTemplate_no_dollar_front values hpre]
    have hmid : formatTemplate values (36 :: (key ++ 36 :: rest))
        = (formatTemplate values rest).map (fun t => v ++ t) := by
      rw [formatTemplate_open_dollar values key rest hkey, hv]
    rw [hmid]
    cases hr : formatTemplate values rest <;> simp [Except.map, hr]

/-- Witness for C1: template `c$K$d` under the map `K ↦ a$b` substitutes to
`ca$bd` (the `$` inside the inserted value is not rescanned), and template
`c$L$d` fails naming key `L`. -/
theorem c1_template_substitution_witness :
    formatTemplate (fun k => if k = [75] then some [97, 36, 98] else none)
        [99, 36, 75, 36, 100] = .ok [99, 97, 36, 98, 100]
    ∧ formatTemplate (fun k => if k = [75] then some [97, 36, 98] else none)
        [99, 36, 76, 36, 100] = .error [76] := by
  constructor
  · have h := (c1_template_substitution
      (fun k => if k = [75] then some [97, 36, 98] else none)
      [99] [75] [100] (by decide) (by decide)).2 [97, 36, 98] rfl
    rw [show ([99, 36, 75, 36, 100] : List Nat) = [99] ++ 36 :: [75] ++ 36 :: [100] from rfl, h]
    simp [formatTemplate, Except.map]
  · have h := (c1_template_substitution
      (fun k => if k = [75] then some [97, 36, 98] else none)
      [99] [76] [100] (by decide) (by decide)).1 rfl
    rw [show ([99, 36, 76, 36, 100] : List Nat) = [99] ++ 36 :: [76] ++ 36 :: [100] from rfl, h]

/-- C7: a `$` with no later `$` before the end of the string is left
literally in the output together with the text after it; no substitution is
performed for it and no error is raised.  `pre` is the dollar-free part
scanned before it, so the `$` shown is the one the scanner reaches as an
opener; `rest` dollar-free makes it unterminated. -/
theorem c7_unterminated_dollar (values : List Nat → Option (List Nat))
    (pre rest : List Nat) (hpre : 36 ∉ pre) (hrest : 36 ∉ rest) :
    formatTemplate values (pre ++ 36 :: rest) = .ok (pre ++ 36 :: rest) := by
  rw [formatTemplate_no_dollar_front values hpre]
  rw [formatTemplate_open_dollar_unterminated values rest hrest]
  simp [Except.map]

/-- Witness for C7: `a$b` comes back unchanged and without error even though
the map is empty. -/
theorem c7_unterminated_dollar_witness :
    formatTemplate (fun _ => none) [97, 36, 98] = .ok [97, 36, 98] := by
  have h := c7_unterminated_dollar (fun _ => none) [97] [98] (by decide) (by decide)
  exact h

/-! ## UTF-8 lemmas -/

theorem contB_36 : contB 36 = false := by decide

theorem cont2ndOk_36 (b : Nat) : cont2ndOk b 36 = false := by
  unfold cont2ndOk
  split_ifs <;> decide

theorem utf8Valid_nil : utf8Valid [] = true := by
  rw [utf8Valid.eq_def]

theorem utf8Valid_cons_some {b : Nat} {rest r : List Nat} (h : utf8Step b rest = some r) :
    utf8Valid (b :: rest) = utf8Valid r := by
  rw [utf8Valid.eq_def]
  simp only []
  split
  · rename_i r2 heq
    rw [h] at heq
    cases heq
    rfl
  · rename_i heq
    rw [h] at heq
    cases heq

theorem utf8Valid_cons_none {b : Nat} {rest : List Nat} (h : utf8Step b rest = none) :
    utf8Valid (b :: rest) = false := by
  rw [utf8Valid.eq_def]
  simp only []
  split
  · rename_i r2 heq
    rw [h] at heq
    cases heq
  · rfl

theorem utf8Step_le {x : Nat} {l r : List Nat} (h : utf8Step x l = some r) :
    r.length ≤ l.length := by
  unfold utf8Step at h
  split_ifs at h
  · cases h; exact Nat.le_refl _
  all_goals split at h
  all_goals first
  | cases h
  | (split_ifs at h; cases h; simp only [List.length_cons]; omega)

/-- A successful character step is unaffected by bytes appended after the
input: the consumed bytes come from the front. -/
theorem utf8Step_append {x : Nat} {l r : List Nat} (t : List Nat)
    (h : utf8Step x l = some r) : utf8Step x (l ++ t) = some (r ++ t) := by
  unfold utf8Step at h ⊢
  split_ifs at h ⊢
  · cases h; rfl
  · cases l with
    | nil => cases h
    | cons c1 r1 =>
      simp only [List.cons_append] at h ⊢
      split_ifs at h ⊢
      cases h
      rfl
  · rcases l with _ | ⟨c1, _ | ⟨c2, r2⟩⟩
    · cases h
    · cases h
    · simp only [List.cons_append] at h ⊢
      split_ifs at h ⊢
      cases h
      rfl
  · rcases l with _ | ⟨c1, _ | ⟨c2, _ | ⟨c3, r3⟩⟩⟩
    · cases h
    · cases h
    · cases h
    · simp only [List.cons_append] at h ⊢
      split_ifs at h ⊢
      cases h
      rfl

/-- A character step over `a ++ 36 :: t` never consumes the `'$'` byte 36
(36 is below every continuation-byte range), so it restricts to a step over
`a` alone. -/
theorem utf8Step_append_dollar {x : Nat} {r : List Nat} (a t : List Nat)
    (h : utf8Step x (a ++ 36 :: t) = some r) :
    ∃ a2, utf8Step x a = some a2 ∧ r = a2 ++ 36 :: t := by
  unfold utf8Step at h ⊢
  split_ifs at h ⊢
  · cases h; exact ⟨a, rfl, rfl⟩
  · cases a with
    | nil =>
      simp [contB_36] at h
    | cons c1 r1 =>
      simp only [List.cons_append] at h ⊢
      split_ifs at h ⊢
      cases h
      exact ⟨r1, rfl, rfl⟩
  · rcases a with _ | ⟨c1, _ | ⟨c2, r2⟩⟩
    · simp only [List.nil_append] at h
      cases t with
      | nil => cases h
      | cons u t2 => simp [cont2ndOk_36] at h
    · simp [contB_36] at h
    · simp only [List.cons_append] at h ⊢
      split_ifs at h ⊢
      cases h
      exact ⟨r2, rfl, rfl⟩
  · rcases a with _ | ⟨c1, _ | ⟨c2, _ | ⟨c3, r3⟩⟩⟩
    · simp only [List.nil_append] at h
      rcases t with _ | ⟨u, _ | ⟨v, t3⟩⟩
      · cases h
      · cases h
      · simp [cont2ndOk_36] at h
    · simp only [List.cons_append, List.nil_append] at h
      cases t with
      | nil => cases h
      | cons u t2 => simp [contB_36] at h
    · simp [contB_36] at h
    · simp only [List.cons_append] at h ⊢
      split_ifs at h ⊢
      cases h
      exact ⟨r3, rfl, rfl⟩

/-- Concatenating two valid UTF-8 byte strings yields a valid one. -/
theorem utf8Valid_append (t : List Nat) (ht : utf8Valid t = true) :
    ∀ a : List Nat, utf8Valid a = true → utf8Valid (a ++ t) = true := by
  intro a
  induction a using utf8Valid.induct with
  | case1 =>
    intro _
    simpa using ht
  | case2 x rest r hstep ih =>
    intro ha
    rw [utf8Valid_cons_some hstep] at ha
    rw [List.cons_append, utf8Valid_cons_some (utf8Step_append t hstep)]
    exact ih ha
  | case3 x rest hstep =>
    intro ha
    rw [utf8Valid_cons_none hstep] at ha
    cases ha

/-- Splitting a valid UTF-8 byte string at an occurrence of byte 36 (`'$'`)
yields two valid byte strings: a `'$'` in valid UTF-8 always sits on
character boundaries. -/
theorem utf8Valid_split_dollar :
    ∀ (n : Nat) (a t : List Nat), a.length ≤ n → utf8Valid (a ++ 36 :: t) = true →
      utf8Valid a = true ∧ utf8Valid t = true := by
  intro n
  induction n with
  | zero =>
    intro a t hlen h
    have ha : a = [] := List.eq_nil_of_length_eq_zero (Nat.le_zero.mp hlen)
    subst ha
    simp only [List.nil_append] at h
    rw [utf8Valid_cons_some (show utf8Step 36 t = some t by simp [utf8Step])] at h
    exact ⟨utf8Valid_nil, h⟩
  | succ n ih =>
    intro a t hlen h
    cases a with
    | nil =>
      simp only [List.nil_append] at h
      rw [utf8Valid_cons_some (show utf8Step 36 t = some t by simp [utf8Step])] at h
      exact ⟨utf8Valid_nil, h⟩
    | cons x a1 =>
      rw [List.cons_append] at h
      cases hstep : utf8Step x (a1 ++ 36 :: t) with
      | none => rw [utf8Valid_cons_none hstep] at h; cases h
      | some r =>
        rw [utf8Valid_cons_some hstep] at h
        obtain ⟨a2, hstep2, hr⟩ := utf8Step_append_dollar a1 t hstep
        subst hr
        have hlen2 : a2.length ≤ n := by
          have h1 := utf8Step_le hstep2
          simp only [List.length_cons] at hlen
          omega
        obtain ⟨ha2, ht⟩ := ih a2 t hlen2 h
        refine ⟨?_, ht⟩
        rw [utf8Valid_cons_some hstep2]
        exact ha2

theorem findDollar_none_not_mem : ∀ {l : List Nat}, findDollar l = none → 36 ∉ l := by
  intro l
  induction l with
  | nil => intro _ hm; cases hm
  | cons b rest ih =>
    intro h hm
    simp only [findDollar] at h
    split at h
    · cases h
    · rename_i hb
      cases hr : findDollar rest with
      | some p => rw [hr] at h; cases h
      | none =>
        rcases List.mem_cons.mp hm with h36 | h36
        · exact hb h36.symm
        · exact ih hr h36

theorem utf8Valid_split_at (a t : List Nat) (h : utf8Valid (a ++ 36 :: t) = true) :
    utf8Valid a = true ∧ utf8Valid t = true :=
  utf8Valid_split_dollar a.length a t (Nat.le_refl _) h

/-- C10: on valid UTF-8 input with valid UTF-8 replacement values, every
byte-offset boundary `format_template` slices at is the position of a `'$'`
byte, which valid UTF-8 only contains as a complete single-byte character;
hence the extracted key slices and the produced output are themselves valid
UTF-8 and no character-boundary violation (Rust slice panic) can occur. -/
theorem c10_template_utf8_safety :
    ∀ (n : Nat) (values : List Nat → Option (List Nat)) (t : List Nat),
      t.length ≤ n →
      utf8Valid t = true →
      (∀ k v, values k = some v → utf8Valid v = true) →
      (∀ r, formatTemplate values t = .ok r → utf8Valid r = true)
      ∧ (∀ k, formatTemplate values t = .error k → utf8Valid k = true) := by
  intro n
  induction n with
  | zero =>
    intro values t hlen ht _
    have h0 : t = [] := List.eq_nil_of_length_eq_zero (Nat.le_zero.mp hlen)
    subst h0
    have hft : formatTemplate values [] = .ok [] := by simp [formatTemplate]
    constructor
    · intro r hr
      rw [hft] at hr
      cases hr
      exact utf8Valid_nil
    · intro k hk
      rw [hft] at hk
      cases hk
  | succ n ih =>
    intro values t hlen ht hvals
    cases hfd : findDollar t with
    | none =>
      have hft : formatTemplate values t = .ok t :=
        formatTemplate_no_dollar_id values (findDollar_none_not_mem hfd)
      constructor
      · intro r hr
        rw [hft] at hr
        cases hr
        exact ht
      · intro k hk
        rw [hft] at hk
        cases hk
    | some ps =>
      obtain ⟨p, s⟩ := ps
      obtain ⟨hdec, hp⟩ := findDollar_decomp hfd
      subst hdec
      obtain ⟨hpv, hsv0⟩ := utf8Valid_split_at p s ht
      cases hfd2 : findDollar s with
      | none =>
        have hs : 36 ∉ s := findDollar_none_not_mem hfd2
        have hft : formatTemplate values (p ++ 36 :: s) = .ok (p ++ 36 :: s) := by
          rw [formatTemplate_no_dollar_front values hp,
            formatTemplate_open_dollar_unterminated values s hs]
          simp [Except.map]
        constructor
        · intro r hr
          rw [hft] at hr
          cases hr
          exact ht
        · intro k hk
          rw [hft] at hk
          cases hk
      | some ka =>
        obtain ⟨key, aft⟩ := ka
        obtain ⟨hdec2, hkey⟩ := findDollar_decomp hfd2
        subst hdec2
        obtain ⟨hkv, haftv⟩ := utf8Valid_split_at key aft hsv0
        have hlen2 : aft.length ≤ n := by
          simp only [List.length_append, List.length_cons] at hlen
          omega
        obtain ⟨ihok, iherr⟩ := ih values aft hlen2 haftv hvals
        cases hv : values key with
        | none =>
          have hft : formatTemplate values (p ++ 36 :: (key ++ 36 :: aft)) = .error key := by
            rw [formatTemplate_no_dollar_front values hp,
              formatTemplate_open_dollar values key aft hkey, hv]
            rfl
          constructor
          · intro r hr
            rw [hft] at hr
            cases hr
          · intro k hk
            rw [hft] at hk
            cases hk
            exact hkv
        | some v =>
          have hvvalid : utf8Valid v = true := hvals key v hv
          cases hres : formatTemplate values aft with
          | error k0 =>
            have hft : formatTemplate values (p ++ 36 :: (key ++ 36 :: aft)) = .error k0 := by
              rw [formatTemplate_no_dollar_front values hp,
                formatTemplate_open_dollar values key aft hkey, hv, hres]
              rfl
            constructor
            · intro r hr
              rw [hft] at hr
              cases hr
            · intro k hk
              rw [hft] at hk
              cases hk
              exact iherr k0 hres
          | ok rr =>
            have hft : formatTemplate values (p ++ 36 :: (key ++ 36 :: aft))
                = .ok (p ++ (v ++ rr)) := by
              rw [formatTemplate_no_dollar_front values hp,
                formatTemplate_open_dollar values key aft hkey, hv, hres]
              rfl
            constructor
            · intro r hr
              rw [hft] at hr
              cases hr
              exact utf8Valid_append (v ++ rr)
                (utf8Valid_append rr (ihok rr hres) v hvvalid) p hpv
            · intro k hk
              rw [hft] at hk
              cases hk

/-- Witness for C10: the template `€$K$d` (with a three-byte character before
the placeholder) under `K ↦ λ` (a two-byte character) yields valid UTF-8
output. -/
theorem c10_template_utf8_safety_witness :
    utf8Valid [226, 130, 172, 206, 187, 100] = true := by
  have h := (c10_template_utf8_safety 7
    (fun k => if k = [75] then some [206, 187] else none)
    [226, 130, 172, 36, 75, 36, 100]
    (by simp)
    (by simp [utf8Valid, utf8Step, contB, cont2ndOk])
    (by
      intro k v hkv
      by_cases hk : k = [75]
      · rw [hk] at hkv
        simp at hkv
        rw [← hkv]
        simp [utf8Valid, utf8Step, contB, cont2ndOk]
      · simp [hk] at hkv)).1
  apply h
  simp [formatTemplate, findDollar, Except.map]

/-! ## Feed tracker lemmas -/

theorem firstIdx_append (l : List String) (b a : String) :
    firstIdx (l ++ [b]) a
      = match firstIdx l a with
        | some i => some i
        | none => if b = a then some l.length else none := by
  induction l with
  | nil => simp [firstIdx]
  | cons m rest ih =>
    by_cases hm : m = a
    · simp [firstIdx, hm]
    · simp only [List.cons_append, firstIdx, if_neg hm, List.length_cons, List.append_eq]
      rw [ih]
      cases hfi : firstIdx rest a with
      | some i => simp
      | none =>
        by_cases hb : b = a <;> simp [hb]

/-- The tracker refines the specification-side assignment: started in a state
whose id map is exactly "index in the first-seen list `seen`" with the counter
at `seen.length`, running `identify` over any name sequence returns exactly
the ids the spec's words prescribe. -/
theorem runIdentify_eq_specAssign :
    ∀ (names : List String) (t : FeedTracker) (seen : List String),
      t.next_feed_id = seen.length →
      (∀ m, lookupName t.ids m = firstIdx seen m) →
      (runIdentify t names).1 = specAssign seen names := by
  intro names
  induction names with
  | nil =>
    intro t seen _ _
    simp [runIdentify, specAssign]
  | cons n rest ih =>
    intro t seen hnext hlook
    cases hfi : firstIdx seen n with
    | some i =>
      have hid : t.identify n = (i, t) := by
        unfold FeedTracker.identify
        rw [hlook n, hfi]
      simp only [runIdentify, specAssign, hid, hfi]
      rw [ih t seen hnext hlook]
    | none =>
      have hid : t.identify n
          = (seen.length, ⟨seen.length + 1, (n, seen.length) :: t.ids⟩) := by
        unfold FeedTracker.identify
        rw [hlook n, hfi, hnext]
      have hlook2 : ∀ m, lookupName ((n, seen.length) :: t.ids) m = firstIdx (seen ++ [n]) m := by
        intro m
        simp only [lookupName, firstIdx_append]
        by_cases hm : n = m
        · rw [if_pos hm, ← hm, hfi]
          simp
        · rw [if_neg hm, hlook m]
          cases hfm : firstIdx seen m with
          | some i => rfl
          | none => rw [if_neg hm]
      simp only [runIdentify, specAssign, hid, hfi]
      rw [ih ⟨seen.length + 1, (n, seen.length) :: t.ids⟩ (seen ++ [n]) (by simp) hlook2]

theorem runIdentify_length (names : List String) (t : FeedTracker) :
    (runIdentify t names).1.length = names.length := by
  induction names generalizing t with
  | nil => rfl
  | cons n rest ih => simp [runIdentify, ih]

/-- Method `identify` never disturbs an existing name → id binding. -/
theorem identify_lookup_mono (t : FeedTracker) (n m : String) (i : Nat)
    (h : lookupName t.ids m = some i) :
    lookupName ((t.identify n).2).ids m = some i := by
  unfold FeedTracker.identify
  cases hn : lookupName t.ids n with
  | some j => exact h
  | none =>
    simp only [lookupName]
    by_cases hm : n = m
    · rw [hm] at hn
      rw [hn] at h
      cases h
    · rw [if_neg hm]
      exact h

/-- After `identify t n`, the tracker maps `n` to the returned id. -/
theorem identify_lookup_self (t : FeedTracker) (n : String) :
    lookupName ((t.identify n).2).ids n = some ((t.identify n).1) := by
  unfold FeedTracker.identify
  cases hn : lookupName t.ids n with
  | some j => exact hn
  | none => simp [lookupName]

theorem runIdentify_lookup_mono (names : List String) (t : FeedTracker) (m : String) (i : Nat)
    (h : lookupName t.ids m = some i) :
    lookupName ((runIdentify t names).2).ids m = some i := by
  induction names generalizing t with
  | nil => exact h
  | cons n rest ih =>
    simp only [runIdentify]
    exact ih (t.identify n).2 (identify_lookup_mono t n m i h)

/-- Every returned id is the final tracker's binding for the name at the same
position: an id, once assigned, never changes for the rest of the run. -/
theorem runIdentify_result_lookup :
    ∀ (names : List String) (t : FeedTracker) (i : Nat) (nm : String),
      names.get? i = some nm →
      ∃ id, (runIdentify t names).1.get? i = some id
        ∧ lookupName ((runIdentify t names).2).ids nm = some id := by
  intro names
  induction names with
  | nil => intro t i nm h; cases i <;> cases h
  | cons n rest ih =>
    intro t i nm h
    cases i with
    | zero =>
      cases h
      refine ⟨(t.identify n).1, rfl, ?_⟩
      exact runIdentify_lookup_mono rest (t.identify n).2 n (t.identify n).1
        (identify_lookup_self t n)
    | succ i =>
      simp only [List.get?] at h
      obtain ⟨id, h1, h2⟩ := ih (t.identify n).2 i nm h
      exact ⟨id, h1, h2⟩

/-- Well-formedness of a tracker state: ids are pairwise distinct and below
the counter. -/
def FeedTrackerWf (t : FeedTracker) : Prop :=
  (t.ids.map Prod.snd).Nodup ∧ ∀ p ∈ t.ids, p.2 < t.next_feed_id

theorem identify_wf (t : FeedTracker) (n : String) (h : FeedTrackerWf t) :
    FeedTrackerWf (t.identify n).2 := by
  obtain ⟨hnd, hlt⟩ := h
  unfold FeedTracker.identify
  cases hn : lookupName t.ids n with
  | some j => exact ⟨hnd, hlt⟩
  | none =>
    constructor
    · simp only [List.map_cons, List.nodup_cons]
      refine ⟨?_, hnd⟩
      intro hmem
      obtain ⟨p, hp, hpv⟩ := List.mem_map.mp hmem
      exact absurd hpv (Nat.ne_of_lt (hlt p hp))
    · intro p hp
      rcases List.mem_cons.mp hp with hh | hh
      · rw [hh]
        exact Nat.lt_succ_self _
      · exact Nat.lt_succ_of_lt (hlt p hh)

theorem runIdentify_wf (names : List String) (t : FeedTracker) (h : FeedTrackerWf t) :
    FeedTrackerWf (runIdentify t names).2 := by
  induction names generalizing t with
  | nil => exact h
  | cons n rest ih => exact ih (t.identify n).2 (identify_wf t n h)

theorem lookupName_mem : ∀ (ids : List (String × Nat)) (m : String) (i : Nat),
    lookupName ids m = some i → (m, i) ∈ ids := by
  intro ids
  induction ids with
  | nil => intro m i h; cases h
  | cons p rest ih =>
    intro m i h
    obtain ⟨pn, pi⟩ := p
    simp only [lookupName] at h
    split at h
    · rename_i hn
      cases h
      rw [hn]
      exact List.mem_cons_self _ _
    · exact List.mem_cons_of_mem _ (ih m i h)

/-- In a well-formed tracker the name → id map is injective. -/
theorem lookupName_inj (t : FeedTracker) (h : FeedTrackerWf t) (m1 m2 : String) (i : Nat)
    (h1 : lookupName t.ids m1 = some i) (h2 : lookupName t.ids m2 = some i) : m1 = m2 := by
  have hm1 := lookupName_mem t.ids m1 i h1
  have hm2 := lookupName_mem t.ids m2 i h2
  have heq : (m1, i) = (m2, i) := List.inj_on_of_nodup_map h.1 hm1 hm2 rfl
  exact congrArg Prod.fst heq

/-- C2: over any run, `FeedTracker::identify` returns, for each name, the
index of that name's first occurrence (so a name seen before returns its
previously assigned id, and a new name is assigned the next integer starting
at 0 in first-seen order — this is the `specAssign` refinement); equal names
always receive equal ids, distinct ids imply distinct names (injectivity and
stability follow); and identifying `tech`, `life`, `tech` returns 0, 1, 0. -/
theorem c2_feed_tracker_identify (names : List String) :
    ((runIdentify FeedTracker.new names).1 = specAssign [] names)
    ∧ (∀ (i j : Nat) (ni nj : String), names.get? i = some ni → names.get? j = some nj →
        ni = nj →
        (runIdentify FeedTracker.new names).1.get? i
          = (runIdentify FeedTracker.new names).1.get? j)
    ∧ (∀ (i j : Nat) (ni nj : String), names.get? i = some ni → names.get? j = some nj →
        (runIdentify FeedTracker.new names).1.get? i
          = (runIdentify FeedTracker.new names).1.get? j →
        ni = nj)
    ∧ ((runIdentify FeedTracker.new ["tech", "life", "tech"]).1 = [0, 1, 0]) := by
  have hwfnew : FeedTrackerWf FeedTracker.new :=
    ⟨List.nodup_nil, fun p hp => absurd hp (List.not_mem_nil p)⟩
  refine ⟨?_, ?_, ?_, ?_⟩
  · exact runIdentify_eq_specAssign names FeedTracker.new [] rfl (fun _ => rfl)
  · intro i j ni nj hni hnj heq
    obtain ⟨id1, hr1, hl1⟩ := runIdentify_result_lookup names FeedTracker.new i ni hni
    obtain ⟨id2, hr2, hl2⟩ := runIdentify_result_lookup names FeedTracker.new j nj hnj
    subst heq
    rw [hl1] at hl2
    cases hl2
    rw [hr1, hr2]
  · intro i j ni nj hni hnj heq
    obtain ⟨id1, hr1, hl1⟩ := runIdentify_result_lookup names FeedTracker.new i ni hni
    obtain ⟨id2, hr2, hl2⟩ := runIdentify_result_lookup names FeedTracker.new j nj hnj
    rw [hr1, hr2] at heq
    cases heq
    exact lookupName_inj _ (runIdentify_wf names FeedTracker.new hwfnew) ni nj id1 hl1 hl2
  · rfl

/-- Witness for C2: in the run `tech`, `life`, `tech` the first and third
names are equal, so positions 0 and 2 receive the same id. -/
theorem c2_feed_tracker_identify_witness :
    (runIdentify FeedTracker.new ["tech", "life", "tech"]).1.get? 0
      = (runIdentify FeedTracker.new ["tech", "life", "tech"]).1.get? 2 :=
  (c2_feed_tracker_identify ["tech", "life", "tech"]).2.1 0 2 "tech" "tech" rfl rfl rfl

/-! ## Markdown transformer lemmas -/

theorem getLast?_cons_getD {α : Type} (v d : α) (tail : List α) :
    ((v :: tail).getLast?).getD d = (tail.getLast?).getD v := by
  cases tail with
  | nil => rfl
  | cons w t =>
    rw [List.getLast?_cons_cons]
    cases hl : (w :: t).getLast? with
    | none => simp at hl
    | some x => rfl

theorem processEvent_title (m : DocMeta) (ev : MdEvent) :
    ((processEvent m ev).1).title = (directiveValue "title" ev).getD m.title := by
  cases ev with
  | startFenced language => simp only [processEvent, directiveValue]; split <;> rfl
  | endFenced language => simp only [processEvent, directiveValue]; split <;> rfl
  | other tag => rfl
  | htmlBlock content =>
    simp only [processEvent, directiveValue]
    cases hp : parseDirective content with
    | none => rfl
    | some p =>
      simp only [applyDirective]
      split_ifs with h1 h2 h3 h4 h5 <;> simp [h1, Option.getD]

theorem processEvent_description (m : DocMeta) (ev : MdEvent) :
    ((processEvent m ev).1).description
      = (directiveValue "description" ev).getD m.description := by
  cases ev with
  | startFenced language => simp only [processEvent, directiveValue]; split <;> rfl
  | endFenced language => simp only [processEvent, directiveValue]; split <;> rfl
  | other tag => rfl
  | htmlBlock content =>
    simp only [processEvent, directiveValue]
    cases hp : parseDirective content with
    | none => rfl
    | some p =>
      simp only [applyDirective]
      split_ifs with h1 h2 h3 h4 h5 <;> simp_all [Option.getD]

theorem processEvent_author (m : DocMeta) (ev : MdEvent) :
    ((processEvent m ev).1).author = (directiveValue "author" ev).getD m.author := by
  cases ev with
  | startFenced language => simp only [processEvent, directiveValue]; split <;> rfl
  | endFenced language => simp only [processEvent, directiveValue]; split <;> rfl
  | other tag => rfl
  | htmlBlock content =>
    simp only [processEvent, directiveValue]
    cases hp : parseDirective content with
    | none => rfl
    | some p =>
      simp only [applyDirective]
      split_ifs with h1 h2 h3 h4 h5 <;> simp_all [Option.getD]

theorem processEvent_date (m : DocMeta) (ev : MdEvent) :
    ((processEvent m ev).1).date = (directiveValue "date" ev).getD m.date := by
  cases ev with
  | startFenced language => simp only [processEvent, directiveValue]; split <;> rfl
  | endFenced language => simp only [processEvent, directiveValue]; split <;> rfl
  | other tag => rfl
  | htmlBlock content =>
    simp only [processEvent, directiveValue]
    cases hp : parseDirective content with
    | none => rfl
    | some p =>
      simp only [applyDirective]
      split_ifs with h1 h2 h3 h4 h5 <;> simp_all [Option.getD]

theorem processEvent_feeds (m : DocMeta) (ev : MdEvent) :
    ((processEvent m ev).1).additionalFeeds
        = (match directiveValue "additional-feed" ev with
          | some v => m.additionalFeeds ++ [(m.tracker.identify v).1]
          | none => m.additionalFeeds)
    ∧ ((processEvent m ev).1).tracker
        = (match directiveValue "additional-feed" ev with
          | some v => (m.tracker.identify v).2
          | none => m.tracker) := by
  cases ev with
  | startFenced language =>
    simp only [processEvent, directiveValue]
    split <;> exact ⟨rfl, rfl⟩
  | endFenced language =>
    simp only [processEvent, directiveValue]
    split <;> exact ⟨rfl, rfl⟩
  | other tag => exact ⟨rfl, rfl⟩
  | htmlBlock content =>
    simp only [processEvent, directiveValue]
    cases hp : parseDirective content with
    | none => exact ⟨rfl, rfl⟩
    | some p =>
      simp only [applyDirective]
      split_ifs with h1 h2 h3 h4 h5 <;> simp_all

theorem processEvents_title (events : List MdEvent) :
    ∀ m : DocMeta, ((processEvents m events).1).title
      = ((events.filterMap (directiveValue "title")).getLast?).getD m.title := by
  induction events with
  | nil => intro m; rfl
  | cons ev rest ih =>
    intro m
    have hstep := processEvent_title m ev
    simp only [processEvents, List.filterMap_cons]
    cases hd : directiveValue "title" ev with
    | none =>
      rw [hd] at hstep
      rw [ih, hstep]
      rfl
    | some v =>
      rw [hd] at hstep
      rw [ih, hstep]
      exact (getLast?_cons_getD v m.title _).symm

theorem processEvents_description (events : List MdEvent) :
    ∀ m : DocMeta, ((processEvents m events).1).description
      = ((events.filterMap (directiveValue "description")).getLast?).getD m.description := by
  induction events with
  | nil => intro m; rfl
  | cons ev rest ih =>
    intro m
    have hstep := processEvent_description m ev
    simp only [processEvents, List.filterMap_cons]
    cases hd : directiveValue "description" ev with
    | none =>
      rw [hd] at hstep
      rw [ih, hstep]
      rfl
    | some v =>
      rw [hd] at hstep
      rw [ih, hstep]
      exact (getLast?_cons_getD v m.description _).symm

theorem processEvents_author (events : List MdEvent) :
    ∀ m : DocMeta, ((processEvents m events).1).author
      = ((events.filterMap (directiveValue "author")).getLast?).getD m.author := by
  induction events with
  | nil => intro m; rfl
  | cons ev rest ih =>
    intro m
    have hstep := processEvent_author m ev
    simp only [processEvents, List.filterMap_cons]
    cases hd : directiveValue "author" ev with
    | none =>
      rw [hd] at hstep
      rw [ih, hstep]
      rfl
    | some v =>
      rw [hd] at hstep
      rw [ih, hstep]
      exact (getLast?_cons_getD v m.author _).symm

theorem processEvents_date (events : List MdEvent) :
    ∀ m : DocMeta, ((processEvents m events).1).date
      = ((events.filterMap (directiveValue "date")).getLast?).getD m.date := by
  induction events with
  | nil => intro m; rfl
  | cons ev rest ih =>
    intro m
    have hstep := processEvent_date m ev
    simp only [processEvents, List.filterMap_cons]
    cases hd : directiveValue "date" ev with
    | none =>
      rw [hd] at hstep
      rw [ih, hstep]
      rfl
    | some v =>
      rw [hd] at hstep
      rw [ih, hstep]
      exact (getLast?_cons_getD v m.date _).symm

theorem processEvents_feeds (events : List MdEvent) :
    ∀ m : DocMeta,
      ((processEvents m events).1).additionalFeeds
        = m.additionalFeeds
          ++ (runIdentify m.tracker (events.filterMap (directiveValue "additional-feed"))).1
      ∧ ((processEvents m events).1).tracker
        = (runIdentify m.tracker (events.filterMap (directiveValue "additional-feed"))).2 := by
  induction events with
  | nil =>
    intro m
    exact ⟨by simp [processEvents, runIdentify], rfl⟩
  | cons ev rest ih =>
    intro m
    have hstep := processEvent_feeds m ev
    simp only [processEvents, List.filterMap_cons]
    cases hd : directiveValue "additional-feed" ev with
    | none =>
      rw [hd] at hstep
      obtain ⟨h1, h2⟩ := ih (processEvent m ev).1
      rw [h1, h2, hstep.1, hstep.2]
      exact ⟨rfl, rfl⟩
    | some v =>
      rw [hd] at hstep
      obtain ⟨h1, h2⟩ := ih (processEvent m ev).1
      rw [h1, h2, hstep.1, hstep.2]
      simp only [runIdentify]
      constructor
      · rw [List.append_assoc]
        rfl
      · trivial

/-- C3: among the scratch directives (`title`, `description`, `author`,
`date`) the last directive with a given label wins — the resulting value is
the trimmed value of the last such directive in document order (defaulting to
the cleared empty buffer when absent); in particular `<!--title: A-->`
followed later by `<!--title: B-->` yields title `B`.  By contrast,
`additional-feed` directives accumulate: the feed-id list is exactly the list
of ids `identify` returns for each directive value in order. -/
theorem c3_directive_last_write_wins (tr : FeedTracker) (events : List MdEvent) :
    ((processEvents (initMeta tr) events).1.title
        = ((events.filterMap (directiveValue "title")).getLast?).getD "")
    ∧ ((processEvents (initMeta tr) events).1.description
        = ((events.filterMap (directiveValue "description")).getLast?).getD "")
    ∧ ((processEvents (initMeta tr) events).1.author
        = ((events.filterMap (directiveValue "author")).getLast?).getD "")
    ∧ ((processEvents (initMeta tr) events).1.date
        = ((events.filterMap (directiveValue "date")).getLast?).getD "")
    ∧ ((processEvents (initMeta tr) events).1.additionalFeeds
        = (runIdentify tr (events.filterMap (directiveValue "additional-feed"))).1)
    ∧ ((processEvents (initMeta tr)
          [MdEvent.htmlBlock "<!--title: A-->", MdEvent.other 0,
            MdEvent.htmlBlock "<!--title: B-->"]).1.title = "B") := by
  refine ⟨?_, ?_, ?_, ?_, ?_, ?_⟩
  · exact processEvents_title events (initMeta tr)
  · exact processEvents_description events (initMeta tr)
  · exact processEvents_author events (initMeta tr)
  · exact processEvents_date events (initMeta tr)
  · have h := (processEvents_feeds events (initMeta tr)).1
    simpa [initMeta] using h
  · rfl

/-! ## Blog entry construction -/

/-- C6: a document whose title or description scratch buffer is empty after
transformer processing fails with a fatal "missing attribute" error naming
the offending file path and the missing attribute, and no `BlogEntry` is
produced for it (title is checked first, then description). -/
theorem c6_missing_attribute_error (parseDate : String → Option Int) (buffers : DocMeta)
    (path url_name : String) (feeds : List Nat) :
    (buffers.title = "" →
      build_blog_entry parseDate buffers path url_name feeds
        = .error (.missingAttribute path "title"))
    ∧ (buffers.title ≠ "" → buffers.description = "" →
      build_blog_entry parseDate buffers path url_name feeds
        = .error (.missingAttribute path "description"))
    ∧ ((buffers.title = "" ∨ buffers.description = "") →
      ∀ e : BlogEntry, build_blog_entry parseDate buffers path url_name feeds ≠ .ok e) := by
  refine ⟨?_, ?_, ?_⟩
  · intro h
    simp [build_blog_entry, h]
  · intro h1 h2
    simp [build_blog_entry, h1, h2]
  · intro h e
    rcases h with h | h
    · simp [build_blog_entry, h]
    · by_cases h1 : buffers.title = ""
      · simp [build_blog_entry, h1]
      · simp [build_blog_entry, h1, h]

/-- Witness for C6: a freshly cleared scratch area (title empty) fails with
the "missing title attribute" error for its file. -/
theorem c6_missing_attribute_error_witness :
    build_blog_entry (fun _ => none) (initMeta FeedTracker.new) "in/post/content.md" "post" []
      = .error (.missingAttribute "in/post/content.md" "title") :=
  (c6_missing_attribute_error (fun _ => none) (initMeta FeedTracker.new)
    "in/post/content.md" "post" []).1 rfl

/-! ## RSS item selection lemmas -/

theorem rssEntries_none (entries : List BlogEntry) : rssEntries none entries = entries := by
  induction entries with
  | nil => rfl
  | cons e rest ih => simp [rssEntries, ih]

theorem rssEntries_some_filter (fid : Nat) (entries : List BlogEntry) :
    rssEntries (some fid) entries
      = entries.filter (fun e => e.additional_feeds.contains fid) := by
  induction entries with
  | nil => rfl
  | cons e rest ih =>
    simp only [rssEntries, List.filter_cons]
    by_cases hc : e.additional_feeds.contains fid
    · rw [if_pos hc, if_pos (by exact hc), ih]
    · rw [if_neg hc, if_neg (by exact hc), ih]

theorem rssEntries_eq_filter (fid : Option Nat) (entries : List BlogEntry) :
    rssEntries fid entries = entries.filter (feedPred fid) := by
  cases fid with
  | none =>
    rw [rssEntries_none]
    exact (List.filter_true entries).symm
  | some f => exact rssEntries_some_filter f entries

theorem rssItemsString_eq (base_url : String) (fid : Option Nat) (entries : List BlogEntry) :
    rssItemsString base_url fid entries
      = ((rssEntries fid entries).map (rssItem base_url)).foldr (fun a acc => a ++ acc) "" := by
  induction entries with
  | nil => cases fid <;> rfl
  | cons e rest ih =>
    cases fid with
    | none => simp [rssItemsString, rssEntries, ih]
    | some f =>
      simp only [rssItemsString, rssEntries]
      by_cases hc : e.additional_feeds.contains f
      · rw [if_pos hc, if_pos hc, ih]
        simp
      · rw [if_neg hc, if_neg hc, ih]

/-- C5: the RSS document generated for a registered feed id contains an
`<item>` for an entry iff the entry's `additional_feeds` list contains that
id (the item loop is a filter over the given entries); the main document,
rendered with no feed-id filter, contains an item for every entry
unconditionally, and the emitted `items` string is exactly the concatenation
of the per-entry `<item>` blocks so selected. -/
theorem c5_rss_feed_membership (fid : Nat) (entries : List BlogEntry) (base_url : String) :
    (rssEntries none entries = entries)
    ∧ (rssEntries (some fid) entries
        = entries.filter (fun e => e.additional_feeds.contains fid))
    ∧ (∀ e : BlogEntry, e ∈ rssEntries (some fid) entries
        ↔ e ∈ entries ∧ fid ∈ e.additional_feeds)
    ∧ (rssItemsString base_url none entries
        = ((rssEntries none entries).map (rssItem base_url)).foldr (fun a acc => a ++ acc) "")
    ∧ (rssItemsString base_url (some fid) entries
        = ((rssEntries (some fid) entries).map (rssItem base_url)).foldr
            (fun a acc => a ++ acc) "") := by
  refine ⟨rssEntries_none entries, rssEntries_some_filter fid entries, ?_, ?_, ?_⟩
  · intro e
    rw [rssEntries_some_filter fid entries]
    rw [List.mem_filter]
    simp
  · exact rssItemsString_eq base_url none entries
  · exact rssItemsString_eq base_url (some fid) entries

/-! ## Entry ordering -/

theorem pairwise_date_ne_of_nodup_map :
    ∀ {l : List BlogEntry}, ((l.map (fun e => e.date)).Nodup) →
      l.Pairwise (fun a b => a.date ≠ b.date) := by
  intro l
  induction l with
  | nil => intro _; exact List.Pairwise.nil
  | cons e rest ih =>
    intro h
    simp only [List.map_cons, List.nodup_cons] at h
    refine List.pairwise_cons.mpr ⟨?_, ih h.2⟩
    intro b hb heq
    exact h.1 (heq ▸ List.mem_map_of_mem (fun e => e.date) hb)

/-- C4 (amended): the entry list is sorted once by date, most recent first,
before RSS and list rendering; the order is descending (non-increasing — a
stable sort leaves entries with equal dates adjacent in input order, so it is
strictly descending only when all dates are distinct); per-feed selection is
a filter over the already-sorted sequence, not a separate sort, so every RSS
document and the list page inherit the same descending order. -/
theorem c4_entries_sorted_descending (entries : List BlogEntry) (fid : Option Nat) :
    ((sortEntries entries).Perm entries)
    ∧ List.Sorted dateDescBefore (sortEntries entries)
    ∧ (rssEntries fid (sortEntries entries) = (sortEntries entries).filter (feedPred fid))
    ∧ List.Sorted dateDescBefore (rssEntries fid (sortEntries entries))
    ∧ ((entries.map (fun e => e.date)).Nodup →
        List.Sorted (fun a b : BlogEntry => b.date < a.date)
          (rssEntries fid (sortEntries entries))) := by
  have hsorted : List.Sorted dateDescBefore (sortEntries entries) :=
    List.sorted_insertionSort dateDescBefore entries
  have hperm : (sortEntries entries).Perm entries :=
    List.perm_insertionSort dateDescBefore entries
  refine ⟨hperm, hsorted, rssEntries_eq_filter fid (sortEntries entries), ?_, ?_⟩
  · rw [rssEntries_eq_filter fid (sortEntries entries)]
    exact List.Sorted.filter (feedPred fid) hsorted
  · intro hnd
    have hnd2 : ((sortEntries entries).map (fun e => e.date)).Nodup :=
      ((hperm.map (fun e => e.date)).nodup_iff).mpr hnd
    have hne : (sortEntries entries).Pairwise (fun a b => a.date ≠ b.date) :=
      pairwise_date_ne_of_nodup_map hnd2
    have hstrict : (sortEntries entries).Pairwise (fun a b : BlogEntry => b.date < a.date) := by
      refine (hsorted.and hne).imp ?_
      intro a b hab
      exact lt_of_le_of_ne hab.1 (fun hh => hab.2 hh.symm)
    rw [rssEntries_eq_filter fid (sortEntries entries)]
    exact List.Pairwise.filter (feedPred fid) hstrict

/-- Witness for C4 (amended): two entries with distinct dates 3 and 7 sort
into strictly descending order in the main feed selection. -/
theorem c4_entries_sorted_descending_witness :
    List.Sorted (fun a b : BlogEntry => b.date < a.date)
      (rssEntries none (sortEntries
        [⟨"a", "t1", "d1", 3, []⟩, ⟨"b", "t2", "d2", 7, []⟩])) :=
  (c4_entries_sorted_descending
    [⟨"a", "t1", "d1", 3, []⟩, ⟨"b", "t2", "d2", 7, []⟩] none).2.2.2.2 (by decide)

/-- Counterexample to C4 as stated: two entries sharing date 5 are kept in
input order by the stable sort, so the main RSS selection is not strictly
descending in date. -/
theorem c4_strictly_descending_counterexample :
    (sortEntries [⟨"a", "t1", "d1", 5, []⟩, ⟨"b", "t2", "d2", 5, []⟩]
      = [⟨"a", "t1", "d1", 5, []⟩, ⟨"b", "t2", "d2", 5, []⟩])
    ∧ ¬ List.Pairwise (fun a b : BlogEntry => b.date < a.date)
        (rssEntries none (sortEntries
          [⟨"a", "t1", "d1", 5, []⟩, ⟨"b", "t2", "d2", 5, []⟩])) := by
  constructor
  · rfl
  · intro h
    rw [rssEntries_none, show sortEntries [⟨"a", "t1", "d1", 5, []⟩, ⟨"b", "t2", "d2", 5, []⟩]
        = [⟨"a", "t1", "d1", 5, []⟩, ⟨"b", "t2", "d2", 5, []⟩] from rfl] at h
    obtain ⟨h1, _⟩ := List.pairwise_cons.mp h
    exact absurd (h1 _ (List.mem_cons_self _ _)) (by decide)

/-! ## Ordinal day formatting -/

/-- Counterexample to C8 as stated: the entry-list page does not share the
header's ordinal-day rule.  For day of month 1 the header renders "1st" while
the `blog_entry` fragment's `DATE` renders via the fixed `%eth` format,
producing " 1th" (`%e` space-pads), and the chosen format strings differ. -/
theorem c8_ordinal_rule_counterexample :
    blogListOrdinalDay 1 = " 1th"
    ∧ headerOrdinalDay 1 = "1st"
    ∧ blogListOrdinalDay 1 ≠ headerOrdinalDay 1
    ∧ blogListDateFormatStr ≠ headerDateFormatStr 1 := by
  refine ⟨rfl, rfl, ?_, ?_⟩ <;> decide

/-- C8 (amended): the entry-list page always formats the `DATE` value with
the generic `%eth` pattern; it agrees with the per-page header's ordinal rule
only for days 4–31, while days 1–3 (which the header renders as
1st/2nd/3rd) come out with the generic "th" suffix on the list page. -/
theorem c8_blog_list_generic_th (day : Nat) (h : 4 ≤ day) :
    blogListDateFormatStr = headerDateFormatStr day
    ∧ blogListOrdinalDay day = headerOrdinalDay day := by
  have h1 : day ≠ 1 := by omega
  have h2 : day ≠ 2 := by omega
  have h3 : day ≠ 3 := by omega
  constructor
  · simp [blogListDateFormatStr, headerDateFormatStr, h1, h2, h3]
  · simp [blogListOrdinalDay, headerOrdinalDay, h1, h2, h3]

/-- Witness for C8 (amended): on day 21 the list page and the header agree
(both render " 21th"-style generic suffix). -/
theorem c8_blog_list_generic_th_witness :
    blogListOrdinalDay 21 = headerOrdinalDay 21 :=
  (c8_blog_list_generic_th 21 (by decide)).2

/-! ## Input walk and the index name check -/

theorem processDirModel_errors (dirName : String) :
    ∀ (files : List String) (e : WalkError), processDirModel dirName files = .error e →
      ∃ p, e = .mdMisnamed p := by
  intro files
  induction files with
  | nil => intro e h; cases h
  | cons f rest ih =>
    intro e h
    simp only [processDirModel] at h
    split_ifs at h with h1 h2
    · cases h
      exact ⟨_, rfl⟩
    · cases hrec : processDirModel dirName rest with
      | error e2 =>
        rw [hrec] at h
        cases h
        exact ih _ hrec
      | ok acts =>
        rw [hrec] at h
        cases h
    · cases hrec : processDirModel dirName rest with
      | error e2 =>
        rw [hrec] at h
        cases h
        exact ih _ hrec
      | ok acts =>
        rw [hrec] at h
        cases h

/-- Counterexample to C9 as stated: a file named `index.png` (stem `index`)
inside an entry subdirectory does not abort the run — it is simply copied,
and the subdirectory compiles normally. -/
theorem c9_index_in_subdir_counterexample :
    fileStem "index.png" = "index"
    ∧ mainWalk [.dir "post" ["index.png", "content.md"]]
        = .ok [.copy "post" "index.png", .page "post"] := by
  constructor <;> rfl

/-- C9 (amended): the `index.*` stem check applies only to entries at the
input root — any root entry (file or directory) whose stem is `index` aborts
the run with a fatal error naming it — while `process_dir` performs no such
check, so no subdirectory file can produce the index-name error (its only
error is the misnamed-markdown one). -/
theorem c9_index_check_root_only (name : String) (files : List String)
    (rest : List InputEntry) :
    (fileStem name = "index" →
      mainWalk (.dir name files :: rest) = .error (.indexName name)
      ∧ mainWalk (.file name :: rest) = .error (.indexName name))
    ∧ (∀ (dirName : String) (files2 : List String) (e : WalkError),
        processDirModel dirName files2 = .error e → ∀ p, e ≠ .indexName p) := by
  constructor
  · intro h
    constructor <;> simp [mainWalk, InputEntry.name, h]
  · intro dirName files2 e he p hcontra
    obtain ⟨q, hq⟩ := processDirModel_errors dirName files2 e he
    rw [hq] at hcontra
    cases hcontra

/-- Witness for C9 (amended): a root directory entry named `index.html` and a
root file named `index.png` each abort with the index-name error. -/
theorem c9_index_check_root_only_witness :
    mainWalk [.dir "index.html" []] = .error (.indexName "index.html")
    ∧ mainWalk [.file "index.png"] = .error (.indexName "index.png") := by
  constructor
  · exact ((c9_index_check_root_only "index.html" [] []).1 rfl).1
  · exact ((c9_index_check_root_only "index.png" [] []).1 rfl).2
